import Mathlib

/-!
Shallow embedding of `show_functional_structure.py`.

The program has three parts:
* `should_include` — a pure predicate on filesystem paths deciding whether a
  path appears in the printed tree;
* `show_clean_structure` — a recursive tree printer driven by the filter,
  with a visited-directories set to avoid duplicate directory headers;
* `show_summary` — a shallow one-level lister with per-subdirectory
  permission-error handling.

Paths are modelled as lists of segments (`path.parts`).  Python strings are
modelled as Lean `String` (lists of unicode characters); the handful of
string operations the source uses (`startswith`, `endswith`, `rfind`,
lexicographic comparison by code point) are defined explicitly on the
character lists, following Python semantics.
-/

/-- Python `<` on strings compares characters by code point. -/
def charsLt : List Char → List Char → Bool
  | [], [] => false
  | [], _ :: _ => true
  | _ :: _, [] => false
  | a :: as, b :: bs =>
    if a.toNat < b.toNat then true
    else if b.toNat < a.toNat then false
    else charsLt as bs

def strLt (s t : String) : Bool := charsLt s.data t.data

/-- Comparison `s <= t` on Python strings, as used (via stable `sorted`) in the program. -/
def strLe (s t : String) : Bool := !(strLt t s)

/-- Python `PurePath.name`: the last path segment (empty for an empty path). -/
def pathName (parts : List String) : String := (parts.getLast?).getD ""

/-- Python `str.rfind`, specialised to a single character: index of the last
occurrence, `none` when absent. -/
def rfindChar (cs : List Char) (c : Char) : Option Nat :=
  match (cs.reverse).findIdx? (fun x => x == c) with
  | none => none
  | some k => some (cs.length - 1 - k)

/-- Python `PurePath.suffix`: the extension from the last dot of the name, provided
that dot is neither the first nor the last character; otherwise empty. -/
def pathSuffix (name : String) : String :=
  let cs := name.data
  match rfindChar cs '.' with
  | none => ""
  | some i => if 0 < i ∧ i < cs.length - 1 then String.mk (cs.drop i) else ""

/-- Python `str.startswith`. -/
def pyStartsWith (s pre : String) : Bool := List.isPrefixOf pre.data s.data

/-- Python `str.endswith`. -/
def pyEndsWith (s post : String) : Bool := List.isSuffixOf post.data s.data

/-- Python `pattern[1:]`. -/
def patRest (pat : String) : String := String.mk (pat.data.drop 1)

/-- One iteration of the `auto_generated_files` loop: a pattern starting with
`*` matches by suffix, any other pattern by equality. -/
def matchesPattern (name pat : String) : Bool :=
  if pyStartsWith pat "*" then pyEndsWith name (patRest pat) else name == pat

/-- The `exclude_dirs` set of `should_include`. -/
def exclude_dirs : List String :=
  ["node_modules", ".next", ".git", ".firebase", ".vercel",
   ".github", "__pycache__", "dist", "build", ".cache",
   ".vscode", ".idea", ".DS_Store", "coverage", ".yarn", "dev-tools", "supabase", "database"]

/-- The `exclude_files` set of `should_include`. -/
def exclude_files : List String :=
  [".DS_Store", "Thumbs.db", ".gitignore", ".gitattributes",
   ".env", ".env.local", ".env.production", "package-lock.json",
   "yarn.lock", "pnpm-lock.yaml", "*.log", "*.tmp"]

/-- The `exclude_extensions` set of `should_include`. -/
def exclude_extensions : List String :=
  [".map", ".log", ".tmp", ".cache", ".ico", ".png", ".jpg", ".svg"]

/-- The `auto_generated_files` set of `should_include`. -/
def auto_generated_files : List String :=
  ["asset-manifest.json", "robots.txt", "manifest.json",
   "favicon.ico", "logo192.png", "logo512.png", "*.css.map",
   "*.js.map", "LICENSE.txt", "reportWebVitals.ts",
   "setupTests.ts", "App.test.tsx", "react-app-env.d.ts"]

/-- The predicate `should_include(path)`: the exclusion checks in source order, over the
path's full segment list. -/
def should_include (parts : List String) : Bool :=
  if parts.any (fun part => exclude_dirs.contains part) then false
  else if exclude_files.contains (pathName parts) then false
  else if exclude_extensions.contains (pathSuffix (pathName parts)) then false
  else if auto_generated_files.any (fun pat => matchesPattern (pathName parts) pat) then false
  else if parts.contains "build" || parts.contains "static" then false
  else true

/-! ## Tree printer (`show_clean_structure`) -/

/-- A filesystem entry below the base directory, as enumerated by
`base_path.rglob('*')`: its segments relative to the base, and whether it is
a directory. -/
structure Entry where
  parts : List String
  isDir : Bool
deriving DecidableEq, Repr

/-- Python `current.is_dir()`: the path exists in the enumerated tree and is a
directory. -/
def isDirIn (fs : List Entry) (p : List String) : Bool :=
  fs.any (fun e => e.parts == p && e.isDir)

/-- One printed line of the tree printer: the two fixed banner lines, a
directory header, or a file line.  Headers and file lines are identified by
the full segment list of the path they belong to. -/
inductive Line where
  | banner (s : String)
  | dirHeader (parts : List String)
  | fileLine (parts : List String)
deriving DecidableEq, Repr

/-- The chain visited by `while current != base_path`: the nonempty
truncations of `p`, longest (the path itself) first. -/
def chainAux (p : List String) : Nat → List (List String)
  | 0 => []
  | Nat.succ k => p.take (k + 1) :: chainAux p k

/-- The walk `p, p.parent, …` down to (but excluding) the base directory. -/
def upChain (p : List String) : List (List String) := chainAux p p.length

/-- The upward walk of the source: collect directories not yet in
`shown_dirs`, adding each to the set as it is collected.  Returns the final
set (as a list) and `dirs_to_show` in collection order (deepest first). -/
def collectDirs (fs : List Entry) :
    List (List String) → List (List String) → List (List String) × List (List String)
  | shown, [] => (shown, [])
  | shown, cur :: rest =>
    if isDirIn fs cur && !(shown.contains cur) then
      let r := collectDirs fs (cur :: shown) rest
      (r.1, cur :: r.2)
    else collectDirs fs shown rest

/-- Traversal state: the `shown_dirs` set and the output so far. -/
structure TState where
  shown : List (List String)
  out : List Line
deriving Repr

/-- The body of the `for path in sorted(base_path.rglob('*'))` loop. -/
def processEntry (basePts : List String) (fs : List Entry) (st : TState) (e : Entry) : TState :=
  if should_include (basePts ++ e.parts) then
    let r := collectDirs fs st.shown (upChain e.parts)
    let headers := (r.2.reverse).map Line.dirHeader
    let files := if e.isDir then [] else [Line.fileLine e.parts]
    ⟨r.1, st.out ++ headers ++ files⟩
  else st

/-- The key `str(path)` used by `sorted` on `Path` objects. -/
def sortKey (basePts : List String) (e : Entry) : String :=
  String.intercalate "/" (basePts ++ e.parts)

def entryLe (basePts : List String) (a b : Entry) : Bool :=
  strLe (sortKey basePts a) (sortKey basePts b)

/-- The enumeration `sorted(base_path.rglob('*'))`. -/
def sortEntries (basePts : List String) (fs : List Entry) : List Entry :=
  fs.mergeSort (entryLe basePts)

def treeBanner : List Line :=
  [Line.banner "📁 PROJECT STRUCTURE (Source & Config Files Only):",
   Line.banner (String.mk (List.replicate 60 '='))]

/-- The tree printer `show_clean_structure`: two banner lines, then the loop over the sorted
recursive enumeration. -/
def show_clean_structure (basePts : List String) (fs : List Entry) : List Line :=
  ((sortEntries basePts fs).foldl (processEntry basePts fs) ⟨[], treeBanner⟩).out

/-! ## Summary printer (`show_summary`) -/

/-- An immediate child of a top-level subdirectory. -/
structure SubEntry where
  name : String
  isDir : Bool
deriving DecidableEq, Repr

/-- The outcome of `list(item.iterdir())` for one subdirectory: a child
list, a `PermissionError`, or some other exception (which escapes to the
top-level handler). -/
inductive Children where
  | ok (subs : List SubEntry)
  | permissionError
  | otherError (msg : String)
deriving DecidableEq, Repr

/-- An entry of `base_path.iterdir()` together with what reading its own
children yields. -/
structure BEntry where
  name : String
  isDir : Bool
  children : Children
deriving DecidableEq, Repr

/-- The summary's own (coarser) exclusion set. -/
def summary_exclude_dirs : List String :=
  ["node_modules", ".git", ".next", "dist", "build", ".cache", ".vscode", ".idea"]

/-- The sort key `key=lambda x: x.name`. -/
def nameLe (a b : BEntry) : Bool := strLe a.name b.name

/-- The sort key `key=lambda x: (not x.is_dir(), x.name)`: directories (key 0) before
files (key 1), then by name. -/
def subKey (s : SubEntry) : Nat := if s.isDir then 0 else 1

def subLe (a b : SubEntry) : Bool :=
  subKey a < subKey b || (subKey a == subKey b && strLe a.name b.name)

def renderSub (s : SubEntry) : String :=
  if s.isDir then "  📁 " ++ s.name ++ "/" else "  📄 " ++ s.name

/-- The `for item in sorted(items, ...)` loop: each subdirectory header,
then its sorted children, `(Permission denied)` inline on a permission
error, and on any other exception the top-level handler's message, ending
the listing. -/
def summaryLoop : List BEntry → List String
  | [] => []
  | it :: rest =>
    ("\n📂 " ++ it.name ++ "/") ::
    match it.children with
    | Children.ok subs => ((subs.mergeSort subLe).map renderSub) ++ summaryLoop rest
    | Children.permissionError => "  (Permission denied)" :: summaryLoop rest
    | Children.otherError m => ["Error reading directory: " ++ m]

def summaryHeader : List String :=
  ["\n🔍 ACTUAL DIRECTORY CONTENTS (No filtering):",
   String.mk (List.replicate 60 '=')]

/-- The `items` list comprehension: immediate subdirectories not in the
coarse exclusion set. -/
def summaryItems (entries : List BEntry) : List BEntry :=
  entries.filter (fun it => it.isDir && !(summary_exclude_dirs.contains it.name))

/-- The summary printer `show_summary`: headers, then either the sorted listing, the
no-subdirectories message, or the top-level error message when enumerating
the base directory itself fails. -/
def show_summary (base : Except String (List BEntry)) : List String :=
  summaryHeader ++
  match base with
  | Except.error e => ["Error reading directory: " ++ e]
  | Except.ok entries =>
    let items := summaryItems entries
    if items.isEmpty then ["\nNo subdirectories found."]
    else summaryLoop (items.mergeSort nameLe)

/-! ## Derived notions used by the claims -/

/-- The directory headers of an output stream, in print order. -/
def headerParts (out : List Line) : List (List String) :=
  out.filterMap (fun l => match l with | Line.dirHeader d => some d | _ => none)

/-- Predicate: `a` is a strict ancestor of `d` strictly below the base directory: a
nonempty proper truncation of `d`'s segments. -/
def strictAncestor (a d : List String) : Prop :=
  a ≠ [] ∧ a.length < d.length ∧ d.take a.length = a

/-- Well-formedness of an `rglob` enumeration: every strict nonempty
truncation of an enumerated path is itself enumerated, as a directory.
True of any real filesystem traversal. -/
def wfFS (fs : List Entry) : Prop :=
  ∀ e ∈ fs, ∀ m, m < e.parts.length → 0 < m → isDirIn fs (e.parts.take m) = true

instance (fs : List Entry) : Decidable (wfFS fs) := by
  unfold wfFS
  infer_instance

/-- The invariant components of the tree traversal: the `shown_dirs` set is
exactly the set of printed headers. -/
def ShownInv (st : TState) : Prop := ∀ x, x ∈ st.shown ↔ x ∈ headerParts st.out

/-- Every printed directory header is preceded by the headers of all of its
strict ancestors. -/
def OrderOK (out : List Line) : Prop :=
  ∀ (j : Nat) (d : List String), out[j]? = some (Line.dirHeader d) →
    ∀ a, strictAncestor a d →
      ∃ i : Nat, i < j ∧ out[i]? = some (Line.dirHeader a)

/-- Every printed file line is preceded by the headers of all of the file's
strict ancestors. -/
def FileOrderOK (out : List Line) : Prop :=
  ∀ (j : Nat) (p : List String), out[j]? = some (Line.fileLine p) →
    ∀ a, strictAncestor a p →
      ∃ i : Nat, i < j ∧ out[i]? = some (Line.dirHeader a)

def TreeInv (st : TState) : Prop :=
  ShownInv st ∧ (headerParts st.out).Nodup ∧ OrderOK st.out ∧ FileOrderOK st.out

/-- Canonical form of a subdirectory's children listing: sorted. -/
def canonChildren : Children → Children
  | Children.ok subs => Children.ok (subs.mergeSort subLe)
  | c => c

def canonEntry (e : BEntry) : BEntry := ⟨e.name, e.isDir, canonChildren e.children⟩

/-- Two child-listing outcomes are the same filesystem state if they are
the same error, or child lists containing the same entries. -/
def EquivChildren : Children → Children → Prop
  | Children.ok s₁, Children.ok s₂ => s₁.Perm s₂
  | Children.permissionError, Children.permissionError => True
  | Children.otherError m₁, Children.otherError m₂ => m₁ = m₂
  | _, _ => False

def EquivEntry (a b : BEntry) : Prop :=
  a.name = b.name ∧ a.isDir = b.isDir ∧ EquivChildren a.children b.children

/-- Two enumerations of the base directory present the same filesystem
state when one is a permutation of entries equivalent to the other's. -/
def SameListing (es₁ es₂ : List BEntry) : Prop :=
  ∃ es₃, es₁.Perm es₃ ∧ List.Forall₂ EquivEntry es₃ es₂

/-! ## Basic facts about the string order -/

theorem char_toNat_inj {a b : Char} (h : a.toNat = b.toNat) : a = b :=
  Char.ext (UInt32.toNat.inj h)

theorem charsLt_irrefl : ∀ a : List Char, charsLt a a = false
  | [] => rfl
  | x :: xs => by simp [charsLt, charsLt_irrefl xs]

theorem charsLt_trans : ∀ {a b c : List Char},
    charsLt a b = true → charsLt b c = true → charsLt a c = true
  | [], b, c, hab, hbc => by
    cases b <;> cases c <;> simp_all [charsLt]
  | x :: xs, b, c, hab, hbc => by
    cases b with
    | nil => simp [charsLt] at hab
    | cons y ys =>
      cases c with
      | nil => simp [charsLt] at hbc
      | cons z zs =>
        simp only [charsLt] at hab hbc ⊢
        by_cases h1 : x.toNat < y.toNat
        · by_cases h2 : y.toNat < z.toNat
          · have h3 : x.toNat < z.toNat := Nat.lt_trans h1 h2
            simp [h3]
          · rw [if_neg h2] at hbc
            by_cases h2' : z.toNat < y.toNat
            · rw [if_pos h2'] at hbc
              exact absurd hbc (by simp)
            · have h3 : x.toNat < z.toNat := by omega
              simp [h3]
        · rw [if_neg h1] at hab
          by_cases h1' : y.toNat < x.toNat
          · rw [if_pos h1'] at hab
            exact absurd hab (by simp)
          · rw [if_neg h1'] at hab
            by_cases h2 : y.toNat < z.toNat
            · have h3 : x.toNat < z.toNat := by omega
              simp [h3]
            · rw [if_neg h2] at hbc
              by_cases h2' : z.toNat < y.toNat
              · rw [if_pos h2'] at hbc
                exact absurd hbc (by simp)
              · rw [if_neg h2'] at hbc
                have h3 : ¬ x.toNat < z.toNat := by omega
                have h3' : ¬ z.toNat < x.toNat := by omega
                rw [if_neg h3, if_neg h3']
                exact charsLt_trans hab hbc

theorem charsLt_eq_of_not_lt : ∀ {a b : List Char},
    charsLt a b = false → charsLt b a = false → a = b
  | [], b, hab, _ => by cases b <;> simp_all [charsLt]
  | x :: xs, b, hab, hba => by
    cases b with
    | nil => simp [charsLt] at hba
    | cons y ys =>
      simp only [charsLt] at hab hba
      by_cases h1 : x.toNat < y.toNat <;> by_cases h2 : y.toNat < x.toNat <;> simp_all
      have hx : x = y := char_toNat_inj (by omega)
      subst hx
      exact ⟨rfl, charsLt_eq_of_not_lt hab hba⟩

theorem string_data_inj {a b : String} (h : a.data = b.data) : a = b := by
  cases a; cases b; exact congrArg String.mk h

theorem strLe_total (s t : String) : (strLe s t || strLe t s) = true := by
  simp only [strLe, strLt, Bool.or_eq_true, Bool.not_eq_true']
  by_cases h : charsLt t.data s.data = true
  · right
    by_cases h2 : charsLt s.data t.data = true
    · have := charsLt_trans h h2
      rw [charsLt_irrefl] at this
      exact absurd this (by simp)
    · simpa using h2
  · left; simpa using h

theorem strLe_trans {a b c : String} (h1 : strLe a b = true) (h2 : strLe b c = true) :
    strLe a c = true := by
  simp only [strLe, strLt, Bool.not_eq_true'] at h1 h2 ⊢
  by_cases hca : charsLt c.data a.data = true
  · exfalso
    by_cases hab : charsLt a.data b.data = true
    · have hcb := charsLt_trans hca hab
      rw [h2] at hcb
      exact absurd hcb (by simp)
    · have hab0 : charsLt a.data b.data = false := by simpa using hab
      have hdat : a.data = b.data := charsLt_eq_of_not_lt hab0 h1
      rw [hdat, h2] at hca
      exact absurd hca (by simp)
  · simpa using hca

theorem strLe_antisymm {a b : String} (h1 : strLe a b = true) (h2 : strLe b a = true) :
    a = b := by
  simp only [strLe, strLt, Bool.not_eq_true'] at h1 h2
  exact string_data_inj (charsLt_eq_of_not_lt h2 h1)

theorem strLe_refl (s : String) : strLe s s = true := by
  simp [strLe, strLt, charsLt_irrefl]

/-! ## Claims about the Filter -/

/-- C4: a path any of whose segments is in the excluded-directory set, or
equals `build` or `static`, is excluded by the Filter. -/
theorem filter_excludes_dir_segments (parts : List String)
    (h : (∃ seg ∈ parts, seg ∈ exclude_dirs) ∨ "build" ∈ parts ∨ "static" ∈ parts) :
    should_include parts = false := by
  unfold should_include
  split_ifs with h1 h2 h3 h4 h5 <;> try rfl
  exfalso
  rcases h with ⟨seg, hsm, hsd⟩ | hb | hs
  · exact h1 (List.any_eq_true.mpr ⟨seg, hsm, by simpa using hsd⟩)
  · exact h1 (List.any_eq_true.mpr ⟨"build", hb, by decide⟩)
  · apply h5
    have hc : parts.contains "static" = true := by simpa using hs
    simp [hc]
    exact Or.inr hs

/-- C4 witness: a concrete path under `node_modules`, and one under
`static`, are both excluded. -/
theorem filter_excludes_dir_segments_witness :
    ((∃ seg ∈ ["node_modules", "a.py"], seg ∈ exclude_dirs) ∨
        "build" ∈ ["node_modules", "a.py"] ∨ "static" ∈ ["node_modules", "a.py"]) ∧
      should_include ["node_modules", "a.py"] = false ∧
      should_include ["src", "static", "x.py"] = false :=
  ⟨by decide,
   filter_excludes_dir_segments ["node_modules", "a.py"] (by decide),
   filter_excludes_dir_segments ["src", "static", "x.py"] (by decide)⟩

/-- C8: a path whose suffix is in the excluded-extension set is excluded. -/
theorem filter_excludes_extensions (parts : List String)
    (h : pathSuffix (pathName parts) ∈ exclude_extensions) :
    should_include parts = false := by
  unfold should_include
  split_ifs with h1 h2 h3 h4 h5 <;> try rfl
  exact absurd (by simpa using h) h3

/-- C8 witness: `diagram.png` has suffix `.png` and is excluded. -/
theorem filter_excludes_extensions_witness :
    pathSuffix (pathName ["docs", "diagram.png"]) ∈ exclude_extensions ∧
      should_include ["docs", "diagram.png"] = false :=
  ⟨by decide, filter_excludes_extensions ["docs", "diagram.png"] (by decide)⟩

/-- C5: a pattern beginning with `*` matches exactly the names ending in the
pattern's remainder; any other pattern matches exactly the name equal to it;
and any match against the auto-generated-file pattern set makes the Filter
exclude the path. -/
theorem filter_pattern_semantics :
    (∀ rest name, matchesPattern name (String.mk ('*' :: rest)) = true ↔
        ∃ p, name.data = p ++ rest)
    ∧ (∀ pat name, pat.data.head? ≠ some '*' →
        (matchesPattern name pat = true ↔ name = pat))
    ∧ (∀ parts pat, pat ∈ auto_generated_files →
        matchesPattern (pathName parts) pat = true → should_include parts = false) := by
  refine ⟨?_, ?_, ?_⟩
  · intro rest name
    have hstar : pyStartsWith (String.mk ('*' :: rest)) "*" = true := by
      simp [pyStartsWith, List.isPrefixOf]
    simp only [matchesPattern, hstar, if_true, pyEndsWith, patRest,
      List.isSuffixOf_iff_suffix]
    constructor
    · rintro ⟨p, hp⟩
      exact ⟨p, hp.symm⟩
    · rintro ⟨p, hp⟩
      exact ⟨p, hp.symm⟩
  · intro pat name hhead
    have hstar : pyStartsWith pat "*" = false := by
      simp only [pyStartsWith]
      cases hp : pat.data with
      | nil => rfl
      | cons c cs =>
        have hne : c ≠ '*' := by
          intro hc
          exact hhead (by rw [hp, hc]; rfl)
        simp [List.isPrefixOf, Ne.symm hne]
    simp [matchesPattern, hstar]
  · intro parts pat hmem hmatch
    unfold should_include
    split_ifs with h1 h2 h3 h4 h5 <;> try rfl
    exact absurd (List.any_eq_true.mpr ⟨pat, hmem, hmatch⟩) h4

/-- C5 witness: the suffix pattern at `app.css.map`, the exact pattern at
`LICENSE.txt`, and the resulting exclusion. -/
theorem filter_pattern_semantics_witness :
    (matchesPattern "app.css.map" (String.mk ('*' :: ".css.map".data)) = true ↔
        ∃ p, "app.css.map".data = p ++ ".css.map".data)
    ∧ (matchesPattern "main.py" "LICENSE.txt" = true ↔ ("main.py" : String) = "LICENSE.txt")
    ∧ should_include ["LICENSE.txt"] = false :=
  ⟨filter_pattern_semantics.1 ".css.map".data "app.css.map",
   filter_pattern_semantics.2.1 "LICENSE.txt" "main.py" (by decide),
   filter_pattern_semantics.2.2 ["LICENSE.txt"] "LICENSE.txt" (by decide) (by decide)⟩

/-- C7: `LICENSE.txt` and `app.css.map` are excluded, `main.py` is
included. -/
theorem filter_concrete_examples :
    should_include ["LICENSE.txt"] = false ∧
      should_include ["app.css.map"] = false ∧
      should_include ["main.py"] = true := by
  refine ⟨by decide, by decide, by decide⟩

/-! ## Comparator facts for the summary printer -/

theorem nameLe_trans {a b c : BEntry} (h1 : nameLe a b = true) (h2 : nameLe b c = true) :
    nameLe a c = true := strLe_trans h1 h2

theorem nameLe_total (a b : BEntry) : (nameLe a b || nameLe b a) = true :=
  strLe_total a.name b.name

theorem subLe_trans {a b c : SubEntry} (h1 : subLe a b = true) (h2 : subLe b c = true) :
    subLe a c = true := by
  simp only [subLe, Bool.or_eq_true, decide_eq_true_eq, Bool.and_eq_true, beq_iff_eq]
    at h1 h2 ⊢
  rcases h1 with h1 | ⟨he1, hs1⟩ <;> rcases h2 with h2 | ⟨he2, hs2⟩
  · exact Or.inl (by omega)
  · exact Or.inl (by omega)
  · exact Or.inl (by omega)
  · exact Or.inr ⟨by omega, strLe_trans hs1 hs2⟩

theorem subLe_total (a b : SubEntry) : (subLe a b || subLe b a) = true := by
  simp only [subLe, Bool.or_eq_true, decide_eq_true_eq, Bool.and_eq_true, beq_iff_eq]
  rcases Nat.lt_trichotomy (subKey a) (subKey b) with h | h | h
  · exact Or.inl (Or.inl h)
  · rcases Bool.or_eq_true _ _ ▸ strLe_total a.name b.name with hs | hs
    · exact Or.inl (Or.inr ⟨h, hs⟩)
    · exact Or.inr (Or.inr ⟨h.symm, hs⟩)
  · exact Or.inr (Or.inl h)

theorem subKey_inj {a b : SubEntry} (h : subKey a = subKey b) : a.isDir = b.isDir := by
  cases ha : a.isDir <;> cases hb : b.isDir <;> simp_all [subKey]

theorem subLe_antisymm {a b : SubEntry} (h1 : subLe a b = true) (h2 : subLe b a = true) :
    a = b := by
  simp only [subLe, Bool.or_eq_true, decide_eq_true_eq, Bool.and_eq_true, beq_iff_eq]
    at h1 h2
  rcases h1 with h1 | ⟨he1, hs1⟩
  · rcases h2 with h2 | ⟨he2, hs2⟩
    · omega
    · omega
  · rcases h2 with h2 | ⟨he2, hs2⟩
    · omega
    · cases a with
      | mk na da =>
        cases b with
        | mk nb db =>
          have hn : na = nb := strLe_antisymm hs1 hs2
          have hd : da = db := subKey_inj he1
          rw [hn, hd]

/-! ## Claims about the Summary Printer -/

/-- C3: a permission error while reading one subdirectory's children yields
the inline `(Permission denied)` line and the listing continues with the
remaining subdirectories; any other failure while enumerating the base
directory is reported by the top-level handler and ends the summary. -/
theorem summary_error_handling :
    (∀ nm d rest, summaryLoop (⟨nm, d, Children.permissionError⟩ :: rest) =
        ("\n📂 " ++ nm ++ "/") :: "  (Permission denied)" :: summaryLoop rest)
    ∧ (∀ msg, show_summary (Except.error msg) =
        summaryHeader ++ ["Error reading directory: " ++ msg]) :=
  ⟨fun _ _ _ => rfl, fun _ => rfl⟩

/-- C9: on an empty base directory the tree printer prints only its two
header lines, and the summary printer prints "No subdirectories found." -/
theorem empty_base_output (basePts : List String) :
    show_clean_structure basePts [] =
      [Line.banner "📁 PROJECT STRUCTURE (Source & Config Files Only):",
       Line.banner (String.mk (List.replicate 60 '='))]
    ∧ show_summary (Except.ok []) =
        ["\n🔍 ACTUAL DIRECTORY CONTENTS (No filtering):",
         String.mk (List.replicate 60 '='),
         "\nNo subdirectories found."] := by
  constructor
  · simp [show_clean_structure, sortEntries, treeBanner]
  · rfl

/-- C6: the summary lists the non-excluded immediate subdirectories sorted
by name, and under each subdirectory its children sorted with directories
before files and alphabetically within each kind; the output is exactly the
one-level listing over those sorted lists. -/
theorem summary_listing_sorted (entries : List BEntry) :
    ((summaryItems entries).mergeSort nameLe).Perm (summaryItems entries)
    ∧ ((summaryItems entries).mergeSort nameLe).Pairwise
        (fun a b => strLe a.name b.name = true)
    ∧ (∀ subs : List SubEntry,
        (subs.mergeSort subLe).Perm subs
        ∧ (subs.mergeSort subLe).Pairwise (fun a b =>
            (a.isDir = true ∧ b.isDir = false) ∨ (a.isDir = b.isDir ∧ strLe a.name b.name = true)))
    ∧ show_summary (Except.ok entries) =
        summaryHeader ++
          (if (summaryItems entries).isEmpty then ["\nNo subdirectories found."]
           else summaryLoop ((summaryItems entries).mergeSort nameLe)) := by
  refine ⟨List.mergeSort_perm _ nameLe, ?_, ?_, rfl⟩
  · have hs := @List.sorted_mergeSort BEntry nameLe
      (fun a b c hab hbc => nameLe_trans hab hbc)
      (fun a b => nameLe_total a b)
      (summaryItems entries)
    exact hs.imp (fun h => h)
  · intro subs
    refine ⟨List.mergeSort_perm _ subLe, ?_⟩
    have hs := @List.sorted_mergeSort SubEntry subLe
      (fun a b c hab hbc => subLe_trans hab hbc)
      (fun a b => subLe_total a b)
      subs
    refine hs.imp (fun {a b} h => ?_)
    simp only [subLe, Bool.or_eq_true, decide_eq_true_eq, Bool.and_eq_true, beq_iff_eq] at h
    rcases h with h | ⟨he, hname⟩
    · left
      cases ha : a.isDir <;> cases hb : b.isDir <;> simp_all [subKey]
    · right
      exact ⟨subKey_inj he, hname⟩

/-! ## The tree traversal invariant -/

theorem contains_eq_decide_mem {α : Type} [BEq α] [LawfulBEq α] (l : List α) (a : α) :
    l.contains a = decide (a ∈ l) := by
  simp [List.contains]

theorem collectDirs_fst (fs : List Entry) :
    ∀ (chain shown : List (List String)),
      (collectDirs fs shown chain).1 = (collectDirs fs shown chain).2.reverse ++ shown
  | [], shown => by simp [collectDirs]
  | cur :: rest, shown => by
    by_cases hc : (isDirIn fs cur && !(shown.contains cur)) = true
    · simp only [collectDirs, hc, if_true]
      rw [collectDirs_fst fs rest (cur :: shown)]
      simp
    · simp only [collectDirs, hc]
      rw [if_neg (by simp [hc])]
      exact collectDirs_fst fs rest shown

theorem collectDirs_snd (fs : List Entry) :
    ∀ (chain shown : List (List String)), chain.Nodup →
      (collectDirs fs shown chain).2 =
        chain.filter (fun x => isDirIn fs x && !(shown.contains x))
  | [], _, _ => by simp [collectDirs]
  | cur :: rest, shown, hnd => by
    have hcur : cur ∉ rest := (List.nodup_cons.mp hnd).1
    have hrest : rest.Nodup := (List.nodup_cons.mp hnd).2
    by_cases hc : (isDirIn fs cur && !(shown.contains cur)) = true
    · simp only [collectDirs, hc, if_true, List.filter_cons]
      rw [collectDirs_snd fs rest (cur :: shown) hrest]
      congr 1
      apply List.filter_congr
      intro x hx
      have hxc : x ≠ cur := fun h => hcur (h ▸ hx)
      simp [List.contains_cons, hxc]
    · simp only [collectDirs, hc, List.filter_cons]
      rw [if_neg (by simp [hc]), if_neg (by simp [hc])]
      exact collectDirs_snd fs rest shown hrest

theorem chainAux_mem {p : List String} :
    ∀ {k : Nat} {x}, x ∈ chainAux p k ↔ ∃ m, 0 < m ∧ m ≤ k ∧ x = p.take m := by
  intro k
  induction k with
  | zero =>
    intro x
    constructor
    · intro h; simp [chainAux] at h
    · rintro ⟨m, h1, h2, _⟩; omega
  | succ k ih =>
    intro x
    simp only [chainAux, List.mem_cons]
    constructor
    · rintro (rfl | hx)
      · exact ⟨k + 1, by omega, by omega, rfl⟩
      · obtain ⟨m, h1, h2, h3⟩ := ih.mp hx
        exact ⟨m, h1, by omega, h3⟩
    · rintro ⟨m, h1, h2, rfl⟩
      by_cases hm : m = k + 1
      · subst hm; exact Or.inl rfl
      · exact Or.inr (ih.mpr ⟨m, h1, by omega, rfl⟩)

theorem chainAux_pairwise {p : List String} :
    ∀ {k : Nat}, k ≤ p.length → (chainAux p k).Pairwise (fun x y => y.length < x.length) := by
  intro k
  induction k with
  | zero => intro _; simp [chainAux]
  | succ k ih =>
    intro hk
    simp only [chainAux]
    refine List.Pairwise.cons ?_ (ih (by omega))
    intro y hy
    obtain ⟨m, h1, h2, rfl⟩ := chainAux_mem.mp hy
    rw [List.length_take, List.length_take]
    omega

theorem upChain_mem {p x} : x ∈ upChain p ↔ ∃ m, 0 < m ∧ m ≤ p.length ∧ x = p.take m :=
  chainAux_mem

theorem upChain_nodup (p : List String) : (upChain p).Nodup :=
  (chainAux_pairwise (Nat.le_refl p.length)).imp
    (fun {_x _y} hab he => absurd (he ▸ hab) (Nat.lt_irrefl _))

theorem headerParts_append (l₁ l₂ : List Line) :
    headerParts (l₁ ++ l₂) = headerParts l₁ ++ headerParts l₂ := by
  simp [headerParts]

theorem headerParts_map_dirHeader (l : List (List String)) :
    headerParts (l.map Line.dirHeader) = l := by
  unfold headerParts
  rw [List.filterMap_map]
  exact List.filterMap_some l

theorem mem_headerParts {d : List String} {out : List Line} :
    d ∈ headerParts out ↔ Line.dirHeader d ∈ out := by
  simp only [headerParts, List.mem_filterMap]
  constructor
  · rintro ⟨l, hl, hfl⟩
    cases l <;> simp_all
  · intro h
    exact ⟨Line.dirHeader d, h, rfl⟩

theorem headerPos_of_mem {out : List Line} {a : List String}
    (h : a ∈ headerParts out) :
    ∃ i : Nat, i < out.length ∧ out[i]? = some (Line.dirHeader a) := by
  have hm : Line.dirHeader a ∈ out := mem_headerParts.mp h
  obtain ⟨i, hi⟩ := List.mem_iff_getElem?.mp hm
  obtain ⟨hlt, _⟩ := List.getElem?_eq_some_iff.mp hi
  exact ⟨i, hlt, hi⟩

theorem pos_lt_of_pairwise_length {L : List (List String)}
    (hL : L.Pairwise (fun x y => x.length < y.length))
    {i j : Nat} {x y : List String}
    (hi : L[i]? = some x) (hj : L[j]? = some y) (hxy : x.length < y.length) : i < j := by
  obtain ⟨hi', hxe⟩ := List.getElem?_eq_some_iff.mp hi
  obtain ⟨hj', hye⟩ := List.getElem?_eq_some_iff.mp hj
  rcases Nat.lt_trichotomy i j with h | h | h
  · exact h
  · exfalso
    subst h
    rw [hi] at hj
    injection hj with he
    rw [he] at hxy
    exact Nat.lt_irrefl _ hxy
  · exfalso
    have hp := List.pairwise_iff_getElem.mp hL j i hj' hi' h
    rw [hxe, hye] at hp
    omega

theorem anc_in_chain {p d a : List String}
    (hd : d ∈ upChain p) (ha : strictAncestor a d) :
    a ∈ upChain p ∧ 0 < a.length ∧ a.length < p.length ∧ a = p.take a.length := by
  obtain ⟨m, hm0, hmn, rfl⟩ := upChain_mem.mp hd
  obtain ⟨hne, hlen, htake⟩ := ha
  have hdl : (p.take m).length = m := by
    rw [List.length_take]
    omega
  have hla : 0 < a.length := List.length_pos.mpr hne
  have hlam : a.length < m := by
    rw [hdl] at hlen
    exact hlen
  have ha2 : a = p.take a.length := by
    have ht := htake
    rw [List.take_take] at ht
    have hmin : min a.length m = a.length := by omega
    rw [hmin] at ht
    exact ht.symm
  exact ⟨upChain_mem.mpr ⟨a.length, hla, by omega, ha2⟩, hla, by omega, ha2⟩

/-- Explicit form of `processEntry` on an included entry. -/
theorem processEntry_included (basePts : List String) (fs : List Entry) (e : Entry)
    (st : TState) (hinc : should_include (basePts ++ e.parts) = true) :
    processEntry basePts fs st e =
      ⟨((upChain e.parts).filter
          (fun x => isDirIn fs x && !(st.shown.contains x))).reverse ++ st.shown,
       st.out ++
         (((upChain e.parts).filter
            (fun x => isDirIn fs x && !(st.shown.contains x))).reverse).map Line.dirHeader ++
         (if e.isDir then [] else [Line.fileLine e.parts])⟩ := by
  unfold processEntry
  rw [if_pos hinc]
  have h2 := collectDirs_snd fs (upChain e.parts) st.shown (upChain_nodup e.parts)
  have h1 := collectDirs_fst fs (upChain e.parts) st.shown
  rw [h2] at h1
  simp only [h1, h2]

theorem processEntry_excluded (basePts : List String) (fs : List Entry) (e : Entry)
    (st : TState) (hinc : ¬ should_include (basePts ++ e.parts) = true) :
    processEntry basePts fs st e = st := by
  unfold processEntry
  rw [if_neg hinc]

/-- The first half of the invariant, established without any
well-formedness assumption: `shown_dirs` is exactly the set of printed
headers, and the printed headers are duplicate-free. -/
def ShownNodupInv (st : TState) : Prop := ShownInv st ∧ (headerParts st.out).Nodup

theorem batch_mem {fs : List Entry} {shown : List (List String)} {p x : List String} :
    x ∈ ((upChain p).filter (fun y => isDirIn fs y && !(shown.contains y))).reverse ↔
      (x ∈ upChain p ∧ isDirIn fs x = true ∧ x ∉ shown) := by
  rw [List.mem_reverse, List.mem_filter]
  constructor
  · rintro ⟨hc, hp⟩
    rw [Bool.and_eq_true, Bool.not_eq_true', contains_eq_decide_mem] at hp
    exact ⟨hc, hp.1, by simpa using hp.2⟩
  · rintro ⟨hc, hd, hs⟩
    refine ⟨hc, ?_⟩
    rw [Bool.and_eq_true, Bool.not_eq_true', contains_eq_decide_mem]
    exact ⟨hd, by simpa using hs⟩

theorem batch_pairwise (fs : List Entry) (shown : List (List String)) (p : List String) :
    (((upChain p).filter (fun y => isDirIn fs y && !(shown.contains y))).reverse).Pairwise
      (fun x y => x.length < y.length) := by
  rw [← List.filter_reverse]
  exact List.Pairwise.sublist (List.filter_sublist _)
    (List.pairwise_reverse.mpr (chainAux_pairwise (Nat.le_refl p.length)))

theorem batch_nodup (fs : List Entry) (shown : List (List String)) (p : List String) :
    (((upChain p).filter (fun y => isDirIn fs y && !(shown.contains y))).reverse).Nodup :=
  (batch_pairwise fs shown p).imp
    (fun {_x _y} hab he => absurd (he ▸ hab) (Nat.lt_irrefl _))

theorem headerParts_files (p : List String) (b : Bool) :
    headerParts (if b then [] else [Line.fileLine p]) = [] := by
  cases b <;> rfl

theorem processEntry_shownNodup (basePts : List String) (fs : List Entry) (e : Entry)
    (st : TState) (hst : ShownNodupInv st) : ShownNodupInv (processEntry basePts fs st e) := by
  obtain ⟨hShown, hNodup⟩ := hst
  by_cases hinc : should_include (basePts ++ e.parts) = true
  · rw [processEntry_included basePts fs e st hinc]
    set batch := ((upChain e.parts).filter
      (fun x => isDirIn fs x && !(st.shown.contains x))).reverse with hbatch
    have hHP : headerParts (st.out ++ batch.map Line.dirHeader ++
        (if e.isDir then [] else [Line.fileLine e.parts])) = headerParts st.out ++ batch := by
      rw [headerParts_append, headerParts_append, headerParts_map_dirHeader,
        headerParts_files, List.append_nil]
    constructor
    · intro x
      show x ∈ batch ++ st.shown ↔ _
      rw [hHP, List.mem_append, List.mem_append, hShown x]
      tauto
    · show (headerParts (st.out ++ batch.map Line.dirHeader ++ _)).Nodup
      rw [hHP, List.nodup_append]
      refine ⟨hNodup, batch_nodup fs st.shown e.parts, ?_⟩
      intro x hx hxb
      have := (batch_mem.mp hxb).2.2
      exact this ((hShown x).mpr hx)
  · rw [processEntry_excluded basePts fs e st hinc]
    exact ⟨hShown, hNodup⟩

/-- Appending a block of headers (strictly increasing in depth) followed by
non-header lines preserves the ancestors-first ordering, provided every
strict ancestor of a new header or file line is either already printed or in
the new block. -/
theorem order_append
    (out₀ : List Line) (B : List (List String)) (F : List Line)
    (hPW : B.Pairwise (fun x y => x.length < y.length))
    (hOrd : OrderOK out₀)
    (hFile : FileOrderOK out₀)
    (hFhdr : ∀ (k : Nat) (d : List String), F[k]? = some (Line.dirHeader d) → False)
    (hAnc : ∀ d ∈ B, ∀ a, strictAncestor a d → (Line.dirHeader a ∈ out₀ ∨ a ∈ B))
    (hAncF : ∀ (q : List String), Line.fileLine q ∈ F → ∀ a, strictAncestor a q →
        (Line.dirHeader a ∈ out₀ ∨ a ∈ B)) :
    OrderOK (out₀ ++ B.map Line.dirHeader ++ F) ∧
      FileOrderOK (out₀ ++ B.map Line.dirHeader ++ F) := by
  have hmap_hdr : ∀ (j' : Nat) (d : List String),
      (B.map Line.dirHeader)[j']? = some (Line.dirHeader d) → B[j']? = some d := by
    intro j' d hj'
    rw [List.getElem?_map] at hj'
    cases hb : B[j']? with
    | none => rw [hb] at hj'; simp at hj'
    | some d' =>
      rw [hb] at hj'
      simp at hj'
      rw [hj']
  have hmap_no_file : ∀ (j' : Nat) (q : List String),
      (B.map Line.dirHeader)[j']? = some (Line.fileLine q) → False := by
    intro j' q hj'
    rw [List.getElem?_map] at hj'
    cases hb : B[j']? with
    | none => rw [hb] at hj'; simp at hj'
    | some d' => rw [hb] at hj'; simp at hj'
  have hnew_old : ∀ (i : Nat), i < out₀.length →
      (out₀ ++ B.map Line.dirHeader ++ F)[i]? = out₀[i]? := by
    intro i hi
    rw [List.getElem?_append_left (by rw [List.length_append]; omega),
        List.getElem?_append_left hi]
  have hnew_hdr : ∀ (i : Nat), i < B.length →
      (out₀ ++ B.map Line.dirHeader ++ F)[out₀.length + i]? =
        (B.map Line.dirHeader)[i]? := by
    intro i hi
    rw [List.getElem?_append_left
        (by rw [List.length_append, List.length_map]; omega)]
    rw [List.getElem?_append_right (by omega)]
    congr 1
    omega
  have hsplit : ∀ (j : Nat) (l : Line), (out₀ ++ B.map Line.dirHeader ++ F)[j]? = some l →
      (j < out₀.length ∧ out₀[j]? = some l) ∨
      (∃ j', j = out₀.length + j' ∧ j' < B.length ∧ (B.map Line.dirHeader)[j']? = some l) ∨
      (out₀.length + B.length ≤ j ∧ ∃ k : Nat, F[k]? = some l) := by
    intro j l hj
    by_cases h1 : j < out₀.length
    · exact Or.inl ⟨h1, by rw [← hnew_old j h1]; exact hj⟩
    · push_neg at h1
      by_cases h2 : j < out₀.length + B.length
      · refine Or.inr (Or.inl ⟨j - out₀.length, by omega, by omega, ?_⟩)
        rw [← hnew_hdr (j - out₀.length) (by omega),
            show out₀.length + (j - out₀.length) = j from by omega]
        exact hj
      · push_neg at h2
        refine Or.inr (Or.inr ⟨h2, j - (out₀.length + B.length), ?_⟩)
        rw [List.getElem?_append_right
            (by rw [List.length_append, List.length_map]; omega)] at hj
        rw [← hj]
        congr 1
        rw [List.length_append, List.length_map]
  have hfind : ∀ (a : List String) (jbound : Nat),
      (Line.dirHeader a ∈ out₀ ∨ ∃ i', B[i']? = some a ∧ i' < jbound) →
      out₀.length + jbound ≤ out₀.length + B.length →
      ∃ i : Nat, i < out₀.length + jbound ∧
        (out₀ ++ B.map Line.dirHeader ++ F)[i]? = some (Line.dirHeader a) := by
    intro a jbound hcase _hb
    rcases hcase with hold | ⟨i', hi', hi'lt⟩
    · obtain ⟨i, hio⟩ := List.mem_iff_getElem?.mp hold
      have hilt : i < out₀.length := (List.getElem?_eq_some_iff.mp hio).1
      exact ⟨i, by omega, by rw [hnew_old i hilt]; exact hio⟩
    · have hi'B : i' < B.length := (List.getElem?_eq_some_iff.mp hi').1
      refine ⟨out₀.length + i', by omega, ?_⟩
      rw [hnew_hdr i' hi'B, List.getElem?_map, hi']
      rfl
  constructor
  · intro j d hj a ha
    rcases hsplit j (Line.dirHeader d) hj with ⟨hjl, hjo⟩ | ⟨j', rfl, hj'B, hj'o⟩ | ⟨hjf, k, hko⟩
    · obtain ⟨i, hij, hio⟩ := hOrd j d hjo a ha
      exact ⟨i, hij, by rw [hnew_old i (by omega)]; exact hio⟩
    · have hbj : B[j']? = some d := hmap_hdr j' d hj'o
      have hdmem : d ∈ B := List.getElem?_mem hbj
      rcases hAnc d hdmem a ha with hold | hB
      · obtain ⟨i, hil, hio⟩ := hfind a j' (Or.inl hold) (by omega)
        exact ⟨i, hil, hio⟩
      · obtain ⟨i', hi'⟩ := List.mem_iff_getElem?.mp hB
        have hi'lt : i' < j' := pos_lt_of_pairwise_length hPW hi' hbj ha.2.1
        obtain ⟨i, hil, hio⟩ := hfind a j' (Or.inr ⟨i', hi', hi'lt⟩) (by omega)
        exact ⟨i, hil, hio⟩
    · exact absurd hko (fun h => hFhdr k d h)
  · intro j q hj a ha
    rcases hsplit j (Line.fileLine q) hj with ⟨hjl, hjo⟩ | ⟨j', rfl, hj'B, hj'o⟩ | ⟨hjf, k, hko⟩
    · obtain ⟨i, hij, hio⟩ := hFile j q hjo a ha
      exact ⟨i, hij, by rw [hnew_old i (by omega)]; exact hio⟩
    · exact absurd hj'o (fun h => hmap_no_file j' q h)
    · have hqmem : Line.fileLine q ∈ F := List.getElem?_mem hko
      rcases hAncF q hqmem a ha with hold | hB
      · obtain ⟨i, hil, hio⟩ := hfind a B.length (Or.inl hold) (by omega)
        exact ⟨i, by omega, hio⟩
      · obtain ⟨i', hi'⟩ := List.mem_iff_getElem?.mp hB
        have hi'B : i' < B.length := (List.getElem?_eq_some_iff.mp hi').1
        obtain ⟨i, hil, hio⟩ := hfind a B.length (Or.inr ⟨i', hi', hi'B⟩) (by omega)
        exact ⟨i, by omega, hio⟩

theorem processEntry_treeInv (basePts : List String) (fs : List Entry) (hwf : wfFS fs)
    (e : Entry) (he : e ∈ fs) (st : TState) (hst : TreeInv st) :
    TreeInv (processEntry basePts fs st e) := by
  obtain ⟨hShown, hNodup, hOrd, hFile⟩ := hst
  have hSN := processEntry_shownNodup basePts fs e st ⟨hShown, hNodup⟩
  by_cases hinc : should_include (basePts ++ e.parts) = true
  · rw [processEntry_included basePts fs e st hinc] at hSN ⊢
    refine ⟨hSN.1, hSN.2, ?_⟩
    have hanc_resolve : ∀ (a : List String), a ∈ upChain e.parts → isDirIn fs a = true →
        (Line.dirHeader a ∈ st.out ∨
          a ∈ ((upChain e.parts).filter
            (fun x => isDirIn fs x && !(st.shown.contains x))).reverse) := by
      intro a hac had
      by_cases hash : a ∈ st.shown
      · exact Or.inl (mem_headerParts.mp ((hShown a).mp hash))
      · exact Or.inr (batch_mem.mpr ⟨hac, had, hash⟩)
    apply order_append
    · exact batch_pairwise fs st.shown e.parts
    · exact hOrd
    · exact hFile
    · intro k d hk
      cases hdir : e.isDir
      · simp only [hdir] at hk
        rcases k with _ | k <;> simp at hk
      · simp at hk
        rw [hdir] at hk
        simp at hk
    · intro d hd a ha
      obtain ⟨hdc, hdd, _⟩ := batch_mem.mp hd
      obtain ⟨hacChain, hla0, hlan, haTake⟩ := anc_in_chain hdc ha
      have haDir : isDirIn fs a = true := by
        have hh := hwf e he a.length hlan hla0
        rw [← haTake] at hh
        exact hh
      exact hanc_resolve a hacChain haDir
    · intro q hq a ha
      cases hdir : e.isDir
      · simp only [hdir] at hq
        simp at hq
        subst hq
        obtain ⟨hne, hlen, htake⟩ := ha
        have hla0 : 0 < a.length := List.length_pos.mpr hne
        have hmem : a ∈ upChain e.parts :=
          upChain_mem.mpr ⟨a.length, hla0, by omega, htake.symm⟩
        have haDir : isDirIn fs a = true := by
          have hh := hwf e he a.length hlen hla0
          rw [htake] at hh
          exact hh
        exact hanc_resolve a hmem haDir
      · rw [hdir] at hq
        simp at hq
  · rw [processEntry_excluded basePts fs e st hinc]
    exact ⟨hShown, hNodup, hOrd, hFile⟩

theorem foldl_treeInv (basePts : List String) (fs : List Entry) (hwf : wfFS fs) :
    ∀ (l : List Entry), (∀ x ∈ l, x ∈ fs) → ∀ (st : TState), TreeInv st →
      TreeInv (l.foldl (processEntry basePts fs) st)
  | [], _, _, hst => hst
  | e :: rest, hl, st, hst => by
    simp only [List.foldl_cons]
    exact foldl_treeInv basePts fs hwf rest
      (fun x hx => hl x (List.mem_cons_of_mem _ hx)) _
      (processEntry_treeInv basePts fs hwf e (hl e (List.mem_cons_self _ _)) st hst)

theorem foldl_shownNodup (basePts : List String) (fs : List Entry) :
    ∀ (l : List Entry) (st : TState), ShownNodupInv st →
      ShownNodupInv (l.foldl (processEntry basePts fs) st)
  | [], _, hst => hst
  | e :: rest, st, hst => by
    simp only [List.foldl_cons]
    exact foldl_shownNodup basePts fs rest _ (processEntry_shownNodup basePts fs e st hst)

theorem initial_treeInv : TreeInv ⟨[], treeBanner⟩ := by
  refine ⟨?_, ?_, ?_, ?_⟩
  · intro x
    simp [headerParts, treeBanner]
  · simp [headerParts, treeBanner]
  · intro j d hj a _
    exfalso
    have hm := List.getElem?_mem hj
    simp [treeBanner] at hm
  · intro j p hj a _
    exfalso
    have hm := List.getElem?_mem hj
    simp [treeBanner] at hm

/-- C2: across one invocation of the tree printer, no directory header is
printed twice: the printed headers are duplicate-free. -/
theorem tree_no_duplicate_headers (basePts : List String) (fs : List Entry) :
    (headerParts (show_clean_structure basePts fs)).Nodup :=
  (foldl_shownNodup basePts fs (sortEntries basePts fs) ⟨[], treeBanner⟩
    ⟨initial_treeInv.1, initial_treeInv.2.1⟩).2

/-- C1: whenever the tree printer prints a directory header, the headers of
all strict ancestors of that directory (strictly below the base) appear
earlier in the output, and likewise every file line is preceded by the
headers of all the file's ancestors. -/
theorem tree_ancestor_headers_first (basePts : List String) (fs : List Entry)
    (hwf : wfFS fs) :
    OrderOK (show_clean_structure basePts fs) ∧
      FileOrderOK (show_clean_structure basePts fs) := by
  have hmem : ∀ x ∈ sortEntries basePts fs, x ∈ fs := by
    intro x hx
    exact List.mem_mergeSort.mp hx
  have h := foldl_treeInv basePts fs hwf (sortEntries basePts fs) hmem
    ⟨[], treeBanner⟩ initial_treeInv
  exact ⟨h.2.2.1, h.2.2.2⟩

/-- C1 witness: a two-entry filesystem (directory `a` containing file
`a/f`) is well-formed, and the ordering properties hold of its output. -/
theorem tree_ancestor_headers_first_witness :
    wfFS [⟨["a"], true⟩, ⟨["a", "f"], false⟩] ∧
      (OrderOK (show_clean_structure [] [⟨["a"], true⟩, ⟨["a", "f"], false⟩]) ∧
        FileOrderOK (show_clean_structure [] [⟨["a"], true⟩, ⟨["a", "f"], false⟩])) :=
  ⟨by decide, tree_ancestor_headers_first [] [⟨["a"], true⟩, ⟨["a", "f"], false⟩] (by decide)⟩

/-! ## Determinism of both printers -/

/-- Two sorted lists that are permutations of each other coincide, provided
the order is antisymmetric on their elements. -/
theorem sorted_perm_unique {α : Type} {r : α → α → Prop} :
    ∀ {l₁ l₂ : List α}, l₁.Perm l₂ → l₁.Pairwise r → l₂.Pairwise r →
      (∀ x ∈ l₁, ∀ y ∈ l₁, r x y → r y x → x = y) → l₁ = l₂ := by
  intro l₁
  induction l₁ with
  | nil =>
    intro l₂ hp _ _ _
    exact hp.nil_eq
  | cons a t ih =>
    intro l₂ hp hs₁ hs₂ hanti
    cases l₂ with
    | nil => exact absurd hp.eq_nil (by simp)
    | cons b u =>
      have hab : a = b := by
        by_contra hne
        have hamem : a ∈ b :: u := hp.subset (List.mem_cons_self a t)
        have ha_u : a ∈ u := by
          rcases List.mem_cons.mp hamem with h | h
          · exact absurd h hne
          · exact h
        have hbmem : b ∈ a :: t := hp.symm.subset (List.mem_cons_self b u)
        have hb_t : b ∈ t := by
          rcases List.mem_cons.mp hbmem with h | h
          · exact absurd h.symm hne
          · exact h
        have hrab : r a b := (List.pairwise_cons.mp hs₁).1 b hb_t
        have hrba : r b a := (List.pairwise_cons.mp hs₂).1 a ha_u
        exact hne (hanti a (List.mem_cons_self a t) b (List.mem_cons_of_mem a hb_t) hrab hrba)
      subst hab
      have htu : t.Perm u := hp.cons_inv
      have hres := ih htu (List.pairwise_cons.mp hs₁).2 (List.pairwise_cons.mp hs₂).2
        (fun x hx y hy hxy hyx =>
          hanti x (List.mem_cons_of_mem a hx) y (List.mem_cons_of_mem a hy) hxy hyx)
      rw [hres]

/-- A stable sort of a list is determined by the multiset of its elements
when the comparison is antisymmetric on them. -/
theorem mergeSort_eq_of_perm {α : Type} (le : α → α → Bool)
    (htrans : ∀ a b c, le a b = true → le b c = true → le a c = true)
    (htotal : ∀ a b, (le a b || le b a) = true)
    {l₁ l₂ : List α} (hp : l₁.Perm l₂)
    (hanti : ∀ x ∈ l₁, ∀ y ∈ l₁, le x y = true → le y x = true → x = y) :
    l₁.mergeSort le = l₂.mergeSort le := by
  have hperm : (l₁.mergeSort le).Perm (l₂.mergeSort le) :=
    (List.mergeSort_perm l₁ le).trans (hp.trans (List.mergeSort_perm l₂ le).symm)
  have hs₁ := @List.sorted_mergeSort α le htrans htotal l₁
  have hs₂ := @List.sorted_mergeSort α le htrans htotal l₂
  refine sorted_perm_unique hperm (hs₁.imp (fun h => h)) (hs₂.imp (fun h => h)) ?_
  intro x hx y hy hxy hyx
  exact hanti x (List.mem_mergeSort.mp hx) y (List.mem_mergeSort.mp hy) hxy hyx

theorem isDirIn_congr {fs₁ fs₂ : List Entry} (hp : fs₁.Perm fs₂) (x : List String) :
    isDirIn fs₁ x = isDirIn fs₂ x := by
  unfold isDirIn
  rw [Bool.eq_iff_iff, List.any_eq_true, List.any_eq_true]
  constructor
  · rintro ⟨e, hm, hb⟩
    exact ⟨e, hp.subset hm, hb⟩
  · rintro ⟨e, hm, hb⟩
    exact ⟨e, hp.symm.subset hm, hb⟩

theorem collectDirs_congr {fs₁ fs₂ : List Entry}
    (h : ∀ x, isDirIn fs₁ x = isDirIn fs₂ x) :
    ∀ (chain shown : List (List String)),
      collectDirs fs₁ shown chain = collectDirs fs₂ shown chain
  | [], _ => rfl
  | cur :: rest, shown => by
    unfold collectDirs
    rw [h cur]
    by_cases hc : (isDirIn fs₂ cur && !(shown.contains cur)) = true
    · rw [if_pos hc, if_pos hc, collectDirs_congr h rest (cur :: shown)]
    · rw [if_neg hc, if_neg hc, collectDirs_congr h rest shown]

theorem processEntry_congr (basePts : List String) {fs₁ fs₂ : List Entry}
    (h : ∀ x, isDirIn fs₁ x = isDirIn fs₂ x) (st : TState) (e : Entry) :
    processEntry basePts fs₁ st e = processEntry basePts fs₂ st e := by
  unfold processEntry
  rw [collectDirs_congr h (upChain e.parts) st.shown]

theorem foldl_processEntry_congr (basePts : List String) {fs₁ fs₂ : List Entry}
    (h : ∀ x, isDirIn fs₁ x = isDirIn fs₂ x) :
    ∀ (l : List Entry) (st : TState),
      l.foldl (processEntry basePts fs₁) st = l.foldl (processEntry basePts fs₂) st
  | [], _ => rfl
  | e :: rest, st => by
    simp only [List.foldl_cons]
    rw [processEntry_congr basePts h st e]
    exact foldl_processEntry_congr basePts h rest _

theorem entryLe_trans (basePts : List String) {a b c : Entry}
    (h1 : entryLe basePts a b = true) (h2 : entryLe basePts b c = true) :
    entryLe basePts a c = true := strLe_trans h1 h2

theorem entryLe_total (basePts : List String) (a b : Entry) :
    (entryLe basePts a b || entryLe basePts b a) = true :=
  strLe_total (sortKey basePts a) (sortKey basePts b)

/-- The tree printer's output depends only on which entries exist, not on
the enumeration order, provided distinct entries have distinct path
strings. -/
theorem tree_run_deterministic (basePts : List String) (fs₁ fs₂ : List Entry)
    (hp : fs₁.Perm fs₂) (hkeys : (fs₁.map (sortKey basePts)).Nodup) :
    show_clean_structure basePts fs₁ = show_clean_structure basePts fs₂ := by
  unfold show_clean_structure
  have hsort : sortEntries basePts fs₁ = sortEntries basePts fs₂ := by
    unfold sortEntries
    refine mergeSort_eq_of_perm (entryLe basePts)
      (fun a b c hab hbc => entryLe_trans basePts hab hbc)
      (entryLe_total basePts) hp ?_
    intro x hx y hy hxy hyx
    exact List.inj_on_of_nodup_map hkeys hx hy (strLe_antisymm hxy hyx)
  rw [hsort,
    foldl_processEntry_congr basePts (isDirIn_congr hp) (sortEntries basePts fs₂)
      ⟨[], treeBanner⟩]

theorem canonEntry_eq_of_equiv {a b : BEntry} (h : EquivEntry a b) :
    canonEntry a = canonEntry b := by
  obtain ⟨hn, hd, hc⟩ := h
  unfold canonEntry
  rw [hn, hd]
  congr 1
  cases hca : a.children with
  | ok s₁ =>
    cases hcb : b.children with
    | ok s₂ =>
      rw [hca, hcb] at hc
      have hperm : s₁.Perm s₂ := hc
      have hms : s₁.mergeSort subLe = s₂.mergeSort subLe :=
        mergeSort_eq_of_perm subLe (fun x y z h1 h2 => subLe_trans h1 h2) subLe_total
          hperm (fun x _ y _ hxy hyx => subLe_antisymm hxy hyx)
      simp only [canonChildren, hms]
    | permissionError => rw [hca, hcb] at hc; exact False.elim hc
    | otherError m => rw [hca, hcb] at hc; exact False.elim hc
  | permissionError =>
    cases hcb : b.children with
    | ok s₂ => rw [hca, hcb] at hc; exact False.elim hc
    | permissionError => rfl
    | otherError m => rw [hca, hcb] at hc; exact False.elim hc
  | otherError m₁ =>
    cases hcb : b.children with
    | ok s₂ => rw [hca, hcb] at hc; exact False.elim hc
    | permissionError => rw [hca, hcb] at hc; exact False.elim hc
    | otherError m₂ =>
      rw [hca, hcb] at hc
      have hm : m₁ = m₂ := hc
      rw [hm]

theorem map_canon_eq_of_forall₂ {l₁ l₂ : List BEntry}
    (h : List.Forall₂ EquivEntry l₁ l₂) : l₁.map canonEntry = l₂.map canonEntry := by
  induction h with
  | nil => rfl
  | cons hab _ht ih =>
    simp only [List.map_cons]
    rw [canonEntry_eq_of_equiv hab, ih]

theorem summaryItems_forall₂ {l₁ l₂ : List BEntry}
    (h : List.Forall₂ EquivEntry l₁ l₂) :
    List.Forall₂ EquivEntry (summaryItems l₁) (summaryItems l₂) := by
  induction h with
  | nil => exact List.Forall₂.nil
  | cons hab _ht ih =>
    rename_i a b t₁ t₂
    unfold summaryItems at ih ⊢
    simp only [List.filter_cons]
    have hpred : (a.isDir && !(summary_exclude_dirs.contains a.name)) =
        (b.isDir && !(summary_exclude_dirs.contains b.name)) := by
      rw [hab.1, hab.2.1]
    rw [hpred]
    by_cases hb : (b.isDir && !(summary_exclude_dirs.contains b.name)) = true
    · rw [if_pos hb, if_pos hb]
      exact List.Forall₂.cons hab ih
    · rw [if_neg hb, if_neg hb]
      exact ih

theorem summaryLoop_congr : ∀ {l₁ l₂ : List BEntry},
    l₁.map canonEntry = l₂.map canonEntry → summaryLoop l₁ = summaryLoop l₂
  | [], [], _ => rfl
  | [], _ :: _, h => by simp at h
  | _ :: _, [], h => by simp at h
  | ⟨na, da, ca⟩ :: t₁, ⟨nb, db, cb⟩ :: t₂, h => by
    simp only [List.map_cons, List.cons.injEq, canonEntry, BEntry.mk.injEq] at h
    obtain ⟨⟨hn, _hd, hch⟩, ht⟩ := h
    subst hn
    cases ca with
    | ok s₁ =>
      cases cb with
      | ok s₂ =>
        simp only [canonChildren, Children.ok.injEq] at hch
        simp only [summaryLoop]
        rw [hch, summaryLoop_congr ht]
      | permissionError => simp [canonChildren] at hch
      | otherError m => simp [canonChildren] at hch
    | permissionError =>
      cases cb with
      | ok s₂ => simp [canonChildren] at hch
      | permissionError =>
        simp only [summaryLoop]
        rw [summaryLoop_congr ht]
      | otherError m => simp [canonChildren] at hch
    | otherError m₁ =>
      cases cb with
      | ok s₂ => simp [canonChildren] at hch
      | permissionError => simp [canonChildren] at hch
      | otherError m₂ =>
        simp only [canonChildren, Children.otherError.injEq] at hch
        simp only [summaryLoop]
        rw [hch]

theorem summary_run_deterministic (es₁ es₂ : List BEntry)
    (hsame : SameListing es₁ es₂)
    (hnames : ((summaryItems es₁).map BEntry.name).Nodup) :
    show_summary (Except.ok es₁) = show_summary (Except.ok es₂) := by
  obtain ⟨es₃, hp, hf⟩ := hsame
  have hAM : (summaryItems es₁).Perm (summaryItems es₃) := hp.filter _
  have hMC := summaryItems_forall₂ hf
  have hmapMC : (summaryItems es₃).map canonEntry = (summaryItems es₂).map canonEntry :=
    map_canon_eq_of_forall₂ hMC
  have hlen : (summaryItems es₁).length = (summaryItems es₂).length := by
    rw [hAM.length_eq, hMC.length_eq]
  have h₁ : show_summary (Except.ok es₁) = summaryHeader ++
      (if (summaryItems es₁).isEmpty then ["\nNo subdirectories found."]
       else summaryLoop ((summaryItems es₁).mergeSort nameLe)) := rfl
  have h₂ : show_summary (Except.ok es₂) = summaryHeader ++
      (if (summaryItems es₂).isEmpty then ["\nNo subdirectories found."]
       else summaryLoop ((summaryItems es₂).mergeSort nameLe)) := rfl
  rw [h₁, h₂]
  by_cases hemp : (summaryItems es₁).isEmpty = true
  · have hemp₂ : (summaryItems es₂).isEmpty = true := by
      rw [List.isEmpty_iff_length_eq_zero] at hemp ⊢
      omega
    rw [if_pos hemp, if_pos hemp₂]
  · have hemp₂ : ¬ (summaryItems es₂).isEmpty = true := by
      rw [List.isEmpty_iff_length_eq_zero] at hemp ⊢
      omega
    rw [if_neg hemp, if_neg hemp₂]
    congr 1
    apply summaryLoop_congr
    have hXname : (((summaryItems es₁).mergeSort nameLe).map canonEntry).map BEntry.name =
        ((summaryItems es₁).mergeSort nameLe).map BEntry.name := by
      rw [List.map_map]
      rfl
    have hXnodup : ((((summaryItems es₁).mergeSort nameLe).map canonEntry).map
        BEntry.name).Nodup := by
      rw [hXname]
      exact (((List.mergeSort_perm (summaryItems es₁) nameLe).map
        BEntry.name).symm).nodup hnames
    have hperm : (((summaryItems es₁).mergeSort nameLe).map canonEntry).Perm
        (((summaryItems es₂).mergeSort nameLe).map canonEntry) := by
      refine ((List.mergeSort_perm (summaryItems es₁) nameLe).map canonEntry).trans ?_
      refine (hAM.map canonEntry).trans ?_
      rw [hmapMC]
      exact ((List.mergeSort_perm (summaryItems es₂) nameLe).map canonEntry).symm
    have hsort₁ : (((summaryItems es₁).mergeSort nameLe).map canonEntry).Pairwise
        (fun x y => nameLe x y = true) :=
      List.Pairwise.map canonEntry (fun a b hab => hab)
        (@List.sorted_mergeSort BEntry nameLe
          (fun a b c h1 h2 => nameLe_trans h1 h2) nameLe_total (summaryItems es₁))
    have hsort₂ : (((summaryItems es₂).mergeSort nameLe).map canonEntry).Pairwise
        (fun x y => nameLe x y = true) :=
      List.Pairwise.map canonEntry (fun a b hab => hab)
        (@List.sorted_mergeSort BEntry nameLe
          (fun a b c h1 h2 => nameLe_trans h1 h2) nameLe_total (summaryItems es₂))
    refine sorted_perm_unique hperm hsort₁ hsort₂ ?_
    intro x hx y hy hxy hyx
    exact List.inj_on_of_nodup_map hXnodup hx hy (strLe_antisymm hxy hyx)

/-- C10: for a fixed filesystem state, the printed output of both printers
is independent of the order in which the filesystem enumerates entries:
both sort what they enumerate. -/
theorem output_deterministic :
    (∀ (basePts : List String) (fs₁ fs₂ : List Entry), fs₁.Perm fs₂ →
        (fs₁.map (sortKey basePts)).Nodup →
        show_clean_structure basePts fs₁ = show_clean_structure basePts fs₂)
    ∧ (∀ (es₁ es₂ : List BEntry), SameListing es₁ es₂ →
        ((summaryItems es₁).map BEntry.name).Nodup →
        show_summary (Except.ok es₁) = show_summary (Except.ok es₂)) :=
  ⟨tree_run_deterministic, summary_run_deterministic⟩

/-- C10 witness: a two-file tree enumerated in either order prints the same
output, and the summary is unchanged under reordering the base entries and
one subdirectory's children. -/
theorem output_deterministic_witness :
    show_clean_structure [] [⟨["b"], false⟩, ⟨["a"], false⟩] =
        show_clean_structure [] [⟨["a"], false⟩, ⟨["b"], false⟩]
    ∧ show_summary (Except.ok
          [⟨"b", true, Children.ok [⟨"x", false⟩, ⟨"y", false⟩]⟩,
           ⟨"a", true, Children.ok []⟩]) =
        show_summary (Except.ok
          [⟨"a", true, Children.ok []⟩,
           ⟨"b", true, Children.ok [⟨"y", false⟩, ⟨"x", false⟩]⟩]) :=
  ⟨output_deterministic.1 [] [⟨["b"], false⟩, ⟨["a"], false⟩]
      [⟨["a"], false⟩, ⟨["b"], false⟩] (by decide) (by decide),
   output_deterministic.2
      [⟨"b", true, Children.ok [⟨"x", false⟩, ⟨"y", false⟩]⟩, ⟨"a", true, Children.ok []⟩]
      [⟨"a", true, Children.ok []⟩, ⟨"b", true, Children.ok [⟨"y", false⟩, ⟨"x", false⟩]⟩]
      ⟨[⟨"a", true, Children.ok []⟩,
        ⟨"b", true, Children.ok [⟨"x", false⟩, ⟨"y", false⟩]⟩],
       by decide,
       List.Forall₂.cons ⟨rfl, rfl, List.Perm.refl ([] : List SubEntry)⟩
         (List.Forall₂.cons
           ⟨rfl, rfl,
            (by decide :
              ([⟨"x", false⟩, ⟨"y", false⟩] : List SubEntry).Perm
                [⟨"y", false⟩, ⟨"x", false⟩])⟩
           List.Forall₂.nil)⟩
      (by decide)⟩

example : should_include ["main.py"] = true := by decide
example : should_include ["LICENSE.txt"] = false := by decide
example : should_include ["app.css.map"] = false := by decide
example : should_include ["src", "static", "x.py"] = false := by decide
example : pathSuffix "archive.tar.gz" = ".gz" := by decide
example : pathSuffix ".env" = "" := by decide
example : pathSuffix "file." = "" := by decide
example : show_clean_structure [] [⟨["a"], true⟩, ⟨["a", "f"], false⟩] =
    treeBanner ++ [Line.dirHeader ["a"], Line.fileLine ["a", "f"]] := by
  simp +decide [show_clean_structure, sortEntries, List.mergeSort]
example : show_summary (Except.ok []) = summaryHeader ++ ["\nNo subdirectories found."] := by decide
example : show_summary (Except.ok
      [⟨"b", true, Children.ok []⟩,
       ⟨"a", true, Children.ok [⟨"y", false⟩, ⟨"x", false⟩, ⟨"d", true⟩]⟩]) =
    summaryHeader ++
      ["\n📂 a/", "  📁 d/", "  📄 x", "  📄 y", "\n📂 b/"] := by
  simp +decide [show_summary, summaryItems, summaryLoop, List.mergeSort, nameLe, subLe, renderSub]
